import Mathlib

/-!
Verification of the odnocam search core: a shallow embedding of the
Zobrist hasher, the pre-endgame permutation enumerator, the negamax
endgame solver's transposition-table logic and move ordering, and the
pre-endgame driver's cutoff accounting, together with theorems settling
the specified properties of each.

Machine integers are modelled as `Nat`/`Int`; Go `int16` conversions and
arithmetic are wrapped explicitly with `i16`.
-/

/-- Go `int16` conversion: wrap an integer into `[-32768, 32767]`. -/
def i16 (x : Int) : Int := (x + 32768) % 65536 - 32768

theorem i16_of_range (x : Int) (h1 : -32768 ≤ x) (h2 : x ≤ 32767) : i16 x = x := by
  unfold i16
  omega

theorem i16_lower (x : Int) : -32768 ≤ i16 x := by
  unfold i16
  omega

theorem i16_upper (x : Int) : i16 x ≤ 32767 := by
  unfold i16
  omega

/-- Cancellation helper for XOR. -/
theorem xor_cancel_left (a b : Nat) : a ^^^ (a ^^^ b) = b := by
  rw [← Nat.xor_assoc, Nat.xor_self, Nat.zero_xor]

/-- Left-commutativity of XOR, for AC normalization. -/
theorem xor_left_comm (a b c : Nat) : a ^^^ (b ^^^ c) = b ^^^ (a ^^^ c) := by
  rw [← Nat.xor_assoc, Nat.xor_comm a b, Nat.xor_assoc]

/-- A fold whose step XORs a key-independent value into the accumulator
shifts over an initial key. -/
theorem foldl_xor_shift {α : Type} (f : Nat → α → Nat)
    (H : ∀ k x, f k x = k ^^^ f 0 x) (l : List α) :
    ∀ k : Nat, l.foldl f k = k ^^^ l.foldl f 0 := by
  induction l with
  | nil => intro k; simp [Nat.xor_zero]
  | cons a t ih =>
    intro k
    rw [List.foldl_cons, List.foldl_cons, ih (f k a), ih (f 0 a), H k a,
      Nat.xor_assoc]

/-- Pair-state fold: if the second component evolves independently of the key
and the key component is XOR-shifted, the whole fold is XOR-shifted. -/
theorem foldl_pair_xor_shift {α S : Type} (step : Nat × S → α → Nat × S)
    (H1 : ∀ k s x, (step (k, s) x).2 = (step (0, s) x).2)
    (H2 : ∀ k s x, (step (k, s) x).1 = k ^^^ (step (0, s) x).1) (l : List α) :
    ∀ (k : Nat) (s : S),
      (l.foldl step (k, s)).1 = k ^^^ (l.foldl step (0, s)).1 ∧
      (l.foldl step (k, s)).2 = (l.foldl step (0, s)).2 := by
  induction l with
  | nil => intro k s; exact ⟨(Nat.xor_zero k).symm, rfl⟩
  | cons a t ih =>
    intro k s
    rw [List.foldl_cons, List.foldl_cons]
    have hs : step (k, s) a = ((step (k, s) a).1, (step (k, s) a).2) := rfl
    have hs0 : step (0, s) a = ((step (0, s) a).1, (step (0, s) a).2) := rfl
    rw [hs, hs0, H1 k s a, H2 k s a]
    obtain ⟨ihk, ihs⟩ := ih (k ^^^ (step (0, s) a).1) ((step (0, s) a).2)
    obtain ⟨ihk0, ihs0⟩ := ih ((step (0, s) a).1) ((step (0, s) a).2)
    refine ⟨?_, ?_⟩
    · rw [ihk, ihk0, Nat.xor_assoc]
    · rw [ihs, ihs0]

/-! ## Zobrist hashing (zobrist package) -/

namespace Zobrist

/-- The key tables of the `Zobrist` struct: `posTable`, `maxRackTable`,
`minRackTable`, `scorelessTurns`, the side-to-move key and the board
dimension. The code fills them with random 64-bit values at `Initialize`;
here they are arbitrary naturals. -/
structure ZTables where
  posTable : Nat → Nat → Nat
  maxRackTable : Nat → Nat → Nat
  minRackTable : Nat → Nat → Nat
  scorelessTurns : Nat → Nat
  minimizingPlayerToMove : Nat
  boardDim : Nat

/-- Operation `Zobrist.Hash` from the source: XOR the position key of every nonzero
square, every `(letter, count)` entry of both rack count arrays, the
side-to-move key when the minimizing player is on turn and, per the source
comment "assume 0 scoreless turns at the beginning", the scoreless key at
index 0. -/
def hash (z : ZTables) (squares maxLetArr minLetArr : List Nat)
    (minimizingPlayerToMove : Bool) : Nat :=
  let k1 := squares.enum.foldl
    (fun k il => if il.2 = 0 then k else k ^^^ z.posTable il.1 il.2) 0
  let k2 := maxLetArr.enum.foldl
    (fun k ict => k ^^^ z.maxRackTable ict.1 ict.2) k1
  let k3 := minLetArr.enum.foldl
    (fun k ict => k ^^^ z.minRackTable ict.1 ict.2) k2
  let k4 := if minimizingPlayerToMove then k3 ^^^ z.minimizingPlayerToMove else k3
  k4 ^^^ z.scorelessTurns 0

/-- The hash formula exactly as the spec words it: XOR of POS for every
occupied square, MAX_RACK/MIN_RACK for every (letter, count) pair on each
rack, SCORELESS at the current scoreless-turn counter, and STM if the
minimizing player is on turn. -/
def specHash (z : ZTables) (squares maxLetArr minLetArr : List Nat)
    (minimizingPlayerToMove : Bool) (scorelessNow : Nat) : Nat :=
  ((squares.enum.filter (fun il => ¬ (il.2 = 0))).map
      (fun il => z.posTable il.1 il.2)).foldr Nat.xor 0 ^^^
  (maxLetArr.enum.map (fun ict => z.maxRackTable ict.1 ict.2)).foldr Nat.xor 0 ^^^
  (minLetArr.enum.map (fun ict => z.minRackTable ict.1 ict.2)).foldr Nat.xor 0 ^^^
  (if minimizingPlayerToMove then z.minimizingPlayerToMove else 0) ^^^
  z.scorelessTurns scorelessNow

theorem foldl_xor_map {α : Type} (g : α → Nat) (l : List α) (k : Nat) :
    l.foldl (fun k x => k ^^^ g x) k = k ^^^ (l.map g).foldr Nat.xor 0 := by
  induction l generalizing k with
  | nil => simp [Nat.xor_zero]
  | cons a t ih =>
    rw [List.foldl_cons, ih, List.map_cons, List.foldr_cons]
    show k ^^^ g a ^^^ _ = k ^^^ (g a ^^^ _)
    rw [Nat.xor_assoc]

theorem foldr_xor_filter {α : Type} (p : α → Prop) [DecidablePred p] (g : α → Nat)
    (l : List α) :
    (l.map (fun x => if p x then 0 else g x)).foldr Nat.xor 0 =
      ((l.filter (fun x => ¬ p x)).map g).foldr Nat.xor 0 := by
  induction l with
  | nil => rfl
  | cons a t ih =>
    by_cases hp : p a
    · simp only [List.map_cons, List.foldr_cons, if_pos hp, List.filter_cons]
      simp [hp, ih]
      exact Nat.zero_xor _
    · simp only [List.map_cons, List.foldr_cons, if_neg hp, List.filter_cons]
      simp [hp, ih]

theorem foldl_xor_skip {α : Type} (p : α → Prop) [DecidablePred p] (g : α → Nat)
    (l : List α) (k : Nat) :
    l.foldl (fun k x => if p x then k else k ^^^ g x) k =
      k ^^^ ((l.filter (fun x => ¬ p x)).map g).foldr Nat.xor 0 := by
  have hstep : (fun (k : Nat) (x : α) => if p x then k else k ^^^ g x) =
      fun (k : Nat) (x : α) => k ^^^ (if p x then 0 else g x) := by
    funext k x
    by_cases hp : p x <;> simp [hp, Nat.xor_zero]
  rw [hstep, foldl_xor_map, foldr_xor_filter]

/-- Amended C2: `Hash` computes the spec's XOR fold with the scoreless key taken at
index 0, whatever the actual scoreless-turn counter of the position is. -/
theorem hash_eq_specHash_zero (z : ZTables) (squares maxLetArr minLetArr : List Nat)
    (b : Bool) :
    hash z squares maxLetArr minLetArr b = specHash z squares maxLetArr minLetArr b 0 := by
  unfold hash specHash
  dsimp only
  rw [foldl_xor_skip (fun il : Nat × Nat => il.2 = 0)
    (fun il : Nat × Nat => z.posTable il.1 il.2),
    foldl_xor_map (fun ict : Nat × Nat => z.maxRackTable ict.1 ict.2),
    foldl_xor_map (fun ict : Nat × Nat => z.minRackTable ict.1 ict.2)]
  cases b <;>
    simp [Nat.xor_assoc, Nat.xor_comm, xor_left_comm, Nat.zero_xor, Nat.xor_zero]

/-- A concrete Zobrist table whose scoreless keys at indices 0 and 1 differ. -/
def zc : ZTables where
  posTable := fun _ _ => 0
  maxRackTable := fun _ _ => 0
  minRackTable := fun _ _ => 0
  scorelessTurns := fun i => i + 1
  minimizingPlayerToMove := 0
  boardDim := 1

/-- C2 counterexample: with the scoreless-turn counter at 1, `Hash` does NOT
return the XOR fold with the SCORELESS key indexed by the current counter:
the source always XORs `scorelessTurns[0]` ("assume 0 scoreless turns at the
beginning") and takes no scoreless-turn argument at all. -/
theorem hash_ignores_scoreless_counter :
    hash zc [] [] [] false ≠ specHash zc [] [] [] false 1 := by
  decide

/-- A move as `Zobrist.AddMove` consumes it (the `move.PlayMaker` interface):
whether it is a tile-placement move, its start square and direction, its
tiles (letter 0 is a play-through marker) and its leave. -/
structure PMMove where
  isTilePlacement : Bool
  rowStart : Nat
  colStart : Nat
  vertical : Bool
  tiles : List Nat
  leave : List Nat

/-- Modelled from the spec: `MachineLetter.IntrinsicTileIdx` of the
tilemapping collaborator (not part of this repository's sources) maps a
played blank (letter with the 0x80 bit set) to the blank index 0 and leaves
a natural letter unchanged. -/
def intrinsicTileIdx (t : Nat) : Nat := if 128 ≤ t then 0 else t

/-- Increment one slot of the placeholder rack. -/
def bump (ph : Nat → Nat) (i : Nat) : Nat → Nat :=
  fun j => if j = i then ph j + 1 else ph j

/-- The placeholder rack `AddMove` builds: counts of the intrinsic indices
of the move's played tiles plus the counts of its leave. -/
def buildPlaceholder (m : PMMove) : Nat → Nat :=
  let ph1 := m.tiles.foldl
    (fun ph t => if t = 0 then ph else bump ph (intrinsicTileIdx t)) (fun _ => 0)
  m.leave.foldl (fun ph t => bump ph t) ph1

/-- The board-position XOR loop of `AddMove`: for each non-playthrough tile,
XOR the position key of the square it lands on. -/
def posKey (z : ZTables) (m : PMMove) (key : Nat) : Nat :=
  m.tiles.enum.foldl
    (fun k it =>
      if it.2 = 0 then k
      else
        k ^^^ z.posTable
          ((m.rowStart + (if m.vertical then 1 else 0) * it.1) * z.boardDim +
            (m.colStart + (if m.vertical then 0 else 1) * it.1)) it.2)
    key

/-- One step of the rack XOR loop of `AddMove`: "play" one tile from the
placeholder rack, XORing the rack key at the count before and after. -/
def rackStep (rackT : Nat → Nat → Nat) (kp : Nat × (Nat → Nat)) (t : Nat) :
    Nat × (Nat → Nat) :=
  if t = 0 then kp
  else
    let i := intrinsicTileIdx t
    let k1 := kp.1 ^^^ rackT i (kp.2 i)
    let ph1 : Nat → Nat := fun j => if j = i then kp.2 j - 1 else kp.2 j
    (k1 ^^^ rackT i (ph1 i), ph1)

/-- Operation `Zobrist.AddMove` from the source: for a tile-placement move XOR the
position keys and run the placeholder-rack loop; for any move XOR the
scoreless key at the last and the new scoreless counters and the
side-to-move key. -/
def addMove (z : ZTables) (key : Nat) (m : PMMove) (maxPlayer : Bool)
    (scorelessTurns lastScorelessTurns : Nat) : Nat :=
  let ourRackTable := if maxPlayer then z.maxRackTable else z.minRackTable
  let key1 :=
    if m.isTilePlacement then
      (m.tiles.foldl (rackStep ourRackTable) (posKey z m key, buildPlaceholder m)).1
    else key
  key1 ^^^ z.scorelessTurns lastScorelessTurns ^^^ z.scorelessTurns scorelessTurns ^^^
    z.minimizingPlayerToMove

theorem posKey_shift (z : ZTables) (m : PMMove) (key : Nat) :
    posKey z m key = key ^^^ posKey z m 0 := by
  unfold posKey
  rw [foldl_xor_shift]
  intro k it
  by_cases h : it.2 = 0 <;> simp [h, Nat.xor_zero]

theorem rackFold_shift (rackT : Nat → Nat → Nat) (l : List Nat) (k : Nat)
    (ph : Nat → Nat) :
    (l.foldl (rackStep rackT) (k, ph)).1 = k ^^^ (l.foldl (rackStep rackT) (0, ph)).1 := by
  refine (foldl_pair_xor_shift (rackStep rackT) ?_ ?_ l k ph).1
  · intro k s x
    by_cases h : x = 0 <;> simp [rackStep, h]
  · intro k s x
    by_cases h : x = 0 <;> simp [rackStep, h, Nat.xor_zero, Nat.xor_assoc]

/-- Helper: `AddMove` is the XOR of the key with a mask that depends only on the
move, the player and the two scoreless counters. -/
theorem addMove_shift (z : ZTables) (key : Nat) (m : PMMove) (p : Bool)
    (sc lsc : Nat) :
    addMove z key m p sc lsc = key ^^^ addMove z 0 m p sc lsc := by
  unfold addMove
  by_cases hm : m.isTilePlacement
  · simp only [hm, if_true]
    rw [posKey_shift z m key,
      rackFold_shift _ m.tiles (key ^^^ posKey z m 0) (buildPlaceholder m),
      rackFold_shift _ m.tiles (posKey z m 0) (buildPlaceholder m)]
    simp [Nat.xor_assoc]
  · simp only [hm, if_false, Bool.false_eq_true]
    simp [Nat.xor_assoc]

/-- C3: playing a move and then unplaying it restores the hash bit-exactly;
the two scoreless-turn arguments swap between the two `AddMove` calls. -/
theorem addMove_involution (z : ZTables) (h : Nat) (m : PMMove) (p : Bool)
    (oldSc newSc : Nat) :
    addMove z (addMove z h m p newSc oldSc) m p oldSc newSc = h := by
  rw [addMove_shift z (addMove z h m p newSc oldSc), addMove_shift z h]
  have hmask : addMove z 0 m p newSc oldSc = addMove z 0 m p oldSc newSc := by
    unfold addMove
    simp [Nat.xor_assoc, Nat.xor_comm, xor_left_comm]
  rw [hmask, Nat.xor_assoc]
  rw [Nat.xor_self, Nat.xor_zero]

end Zobrist

/-! ## Pre-endgame permutation enumeration (preendgame package) -/

namespace Peg

/-- The `Permutation` struct: an ordered draw with its multiplicity. -/
structure Permutation where
  perm : List Nat
  count : Int
  deriving DecidableEq, Repr

/-- Function `product(list, currentPerm)` from the source: walk the chosen indices
left to right, multiplying the current count of each and decrementing it
(the source then restores the counts; the recursion threads the decremented
list instead). -/
def product (list : List Int) (perm : List Nat) : Int :=
  match perm with
  | [] => 1
  | i :: rest => list.getD i 0 * product (list.set i (list.getD i 0 - 1)) rest

/-- Function `generate(list, origList, k, currentPerm, result)` from the source, with
the result accumulator returned instead of appended in place: at `k = 0`
emit the current permutation paired with `product(origList, currentPerm)`;
otherwise branch on every letter index whose remaining count is positive. -/
def generate (list origList : List Int) (k : Nat) (currentPerm : List Nat) :
    List Permutation :=
  match k with
  | 0 => [⟨currentPerm, product origList currentPerm⟩]
  | Nat.succ k' =>
    (List.range list.length).flatMap fun i =>
      if 0 < list.getD i 0 then
        generate (list.set i (list.getD i 0 - 1)) origList k' (currentPerm ++ [i])
      else []

/-- Function `generatePermutations(list, k)` from the source. -/
def generatePermutations (list : List Int) (k : Nat) : List Permutation :=
  generate list list k []

/-- The count the spec describes: the product over positions of the chosen
letter's total count minus the number of its uses before that position. -/
def specCount (counts : List Int) (p : List Nat) : Int :=
  ((List.range p.length).map
    (fun j => counts.getD (p.getD j 0) 0 - ((p.take j).count (p.getD j 0) : Int))).prod

theorem getD_set_self (l : List Int) (i : Nat) (v : Int) (h : i < l.length) :
    (l.set i v).getD i 0 = v := by
  rw [List.getD_eq_getElem?_getD, List.getElem?_set, if_pos rfl, if_pos h]
  rfl

theorem getD_set_ne (l : List Int) (i j : Nat) (v : Int) (h : ¬ (i = j)) :
    (l.set i v).getD j 0 = l.getD j 0 := by
  rw [List.getD_eq_getElem?_getD, List.getElem?_set, if_neg h,
    ← List.getD_eq_getElem?_getD]

theorem lt_length_of_getD_ne (l : List Int) (i : Nat) (h : l.getD i 0 ≠ 0) :
    i < l.length := by
  by_contra hc
  exact h (List.getD_eq_default l 0 (le_of_not_lt hc))

theorem getD_nonneg (l : List Int) (hpos : ∀ x ∈ l, 0 ≤ x) (i : Nat) :
    0 ≤ l.getD i 0 := by
  by_cases h : i < l.length
  · rw [List.getD_eq_getElem l 0 h]
    exact hpos _ (List.getElem_mem h)
  · rw [List.getD_eq_default l 0 (le_of_not_lt h)]

/-- Elementwise characterization of the enumerator: a pair belongs to
`generate list orig k cur` exactly when its permutation extends `cur` by a
length-`k` sequence drawable from the multiset `list`, and its count is the
source's falling product over `orig`. -/
theorem generate_mem (k : Nat) :
    ∀ (list origList : List Int) (cur p : List Nat) (c : Int),
      (∀ x ∈ list, 0 ≤ x) →
      ((⟨p, c⟩ : Permutation) ∈ generate list origList k cur ↔
        ∃ q, p = cur ++ q ∧ q.length = k ∧
          (∀ i, ((q.count i : Int) ≤ list.getD i 0)) ∧
          c = product origList (cur ++ q)) := by
  induction k with
  | zero =>
    intro list origList cur p c hpos
    simp only [generate, List.mem_singleton]
    constructor
    · intro h
      refine ⟨[], ?_, rfl, ?_, ?_⟩
      · simpa using congrArg Permutation.perm h
      · intro i
        simpa using getD_nonneg list hpos i
      · simpa using congrArg Permutation.count h
    · rintro ⟨q, hp, hq, _, hc⟩
      rw [List.length_eq_zero] at hq
      subst hq
      simp only [List.append_nil] at hp hc
      subst hp
      subst hc
      rfl
  | succ k' ih =>
    intro list origList cur p c hpos
    simp only [generate, List.mem_flatMap, List.mem_range, List.mem_ite_nil_right]
    constructor
    · rintro ⟨i, hilt, hipos, hmem⟩
      have hpos' : ∀ x ∈ list.set i (list.getD i 0 - 1), 0 ≤ x := by
        intro x hx
        rcases List.mem_or_eq_of_mem_set hx with hx' | hx'
        · exact hpos x hx'
        · omega
      rw [ih _ origList (cur ++ [i]) p c hpos'] at hmem
      obtain ⟨q', hp, hq, hcnt, hc⟩ := hmem
      refine ⟨i :: q', ?_, by simp [hq], ?_, ?_⟩
      · rw [hp, List.append_assoc, List.singleton_append]
      · intro j
        have hcj := hcnt j
        by_cases hji : j = i
        · subst hji
          rw [getD_set_self list j _ hilt] at hcj
          rw [List.count_cons, beq_self_eq_true, if_pos rfl]
          push_cast
          omega
        · rw [getD_set_ne list i j _ (fun h => hji h.symm)] at hcj
          rw [List.count_cons,
            beq_eq_false_iff_ne.mpr (fun h => hji h.symm), if_neg Bool.false_ne_true]
          simpa using hcj
      · rw [hc, List.append_assoc, List.singleton_append]
    · rintro ⟨q, hp, hq, hcnt, hc⟩
      cases q with
      | nil => simp at hq
      | cons i q' =>
        have hipos : 0 < list.getD i 0 := by
          have hci := hcnt i
          rw [List.count_cons, beq_self_eq_true, if_pos rfl] at hci
          have h0 : (0 : Int) ≤ (List.count i q' : Int) := by
            exact_mod_cast Nat.zero_le _
          push_cast at hci
          omega
        have hilt : i < list.length :=
          lt_length_of_getD_ne list i (by omega)
        refine ⟨i, hilt, hipos, ?_⟩
        have hpos' : ∀ x ∈ list.set i (list.getD i 0 - 1), 0 ≤ x := by
          intro x hx
          rcases List.mem_or_eq_of_mem_set hx with hx' | hx'
          · exact hpos x hx'
          · omega
        rw [ih _ origList (cur ++ [i]) p c hpos']
        refine ⟨q', ?_, by simpa using hq, ?_, ?_⟩
        · rw [hp, List.append_assoc, List.singleton_append]
        · intro j
          have hcj := hcnt j
          rw [List.count_cons] at hcj
          by_cases hji : j = i
          · subst hji
            rw [getD_set_self list j _ hilt]
            rw [beq_self_eq_true, if_pos rfl] at hcj
            push_cast at hcj ⊢
            omega
          · rw [getD_set_ne list i j _ (fun h => hji h.symm)]
            rw [beq_eq_false_iff_ne.mpr (fun h => hji h.symm),
              if_neg Bool.false_ne_true] at hcj
            simpa using hcj
        · rw [hc, List.append_assoc, List.singleton_append]

/-- Every emitted permutation extends the current prefix by `k` letters. -/
theorem generate_shape (k : Nat) :
    ∀ (list origList : List Int) (cur : List Nat) (pr : Permutation),
      pr ∈ generate list origList k cur →
      ∃ q, pr.perm = cur ++ q ∧ q.length = k := by
  induction k with
  | zero =>
    intro list origList cur pr h
    simp only [generate, List.mem_singleton] at h
    exact ⟨[], by simp [h], rfl⟩
  | succ k' ih =>
    intro list origList cur pr h
    simp only [generate, List.mem_flatMap, List.mem_range,
      List.mem_ite_nil_right] at h
    obtain ⟨i, _, _, hmem⟩ := h
    obtain ⟨q', hp, hq⟩ := ih _ origList (cur ++ [i]) pr hmem
    exact ⟨i :: q', by rw [hp, List.append_assoc, List.singleton_append],
      by simp [hq]⟩

theorem append_cons_getElem (cur q : List Nat) (i : Nat) :
    (cur ++ i :: q)[cur.length]? = some i := by
  rw [List.getElem?_append_right (le_refl _)]
  simp

/-- The emitted permutations are pairwise distinct. -/
theorem generate_nodup (k : Nat) :
    ∀ (list origList : List Int) (cur : List Nat),
      ((generate list origList k cur).map (fun pr => pr.perm)).Nodup := by
  induction k with
  | zero =>
    intro list origList cur
    simp [generate]
  | succ k' ih =>
    intro list origList cur
    simp only [generate]
    rw [List.map_flatMap, List.nodup_flatMap]
    constructor
    · intro i _
      split
      · exact ih _ origList (cur ++ [i])
      · simp
    · refine (List.pairwise_lt_range _).imp ?_
      intro i j hij
      intro a hai haj
      simp only [List.mem_map] at hai haj
      obtain ⟨pri, hpri, hia⟩ := hai
      obtain ⟨prj, hprj, hja⟩ := haj
      rw [List.mem_ite_nil_right] at hpri hprj
      obtain ⟨qi, hqi, _⟩ := generate_shape k' _ origList (cur ++ [i]) pri hpri.2
      obtain ⟨qj, hqj, _⟩ := generate_shape k' _ origList (cur ++ [j]) prj hprj.2
      have h1 : a[cur.length]? = some i := by
        rw [← hia, hqi, List.append_assoc, List.singleton_append]
        exact append_cons_getElem cur qi i
      have h2 : a[cur.length]? = some j := by
        rw [← hja, hqj, List.append_assoc, List.singleton_append]
        exact append_cons_getElem cur qj j
      rw [h1] at h2
      exact absurd (Option.some.inj h2) (Nat.ne_of_lt hij)

theorem specCount_nil (counts : List Int) : specCount counts [] = 1 := by
  simp [specCount]

theorem specCount_cons (counts : List Int) (a : Nat) (rest : List Nat)
    (ha : a < counts.length) :
    specCount counts (a :: rest) =
      counts.getD a 0 *
        specCount (counts.set a (counts.getD a 0 - 1)) rest := by
  unfold specCount
  rw [List.length_cons, List.range_succ_eq_map, List.map_cons, List.prod_cons]
  simp only [List.getD_cons_zero, List.take_zero, List.count_nil, Nat.cast_zero,
    sub_zero]
  rw [List.map_map]
  congr 1
  refine congrArg List.prod (List.map_congr_left ?_)
  intro j _
  simp only [Function.comp_apply, List.getD_cons_succ, List.take_succ_cons,
    List.count_cons]
  by_cases hx : rest.getD j 0 = a
  · rw [hx, getD_set_self counts a _ ha, beq_self_eq_true, if_pos rfl]
    push_cast
    ring
  · rw [getD_set_ne counts a _ _ (fun h => hx h.symm),
      beq_eq_false_iff_ne.mpr (fun h => hx h.symm), if_neg Bool.false_ne_true]
    push_cast
    ring

/-- The source's falling product agrees with the spec's formula whenever the
chosen indices are in range. -/
theorem product_eq_specCount (p : List Nat) :
    ∀ counts : List Int, (∀ a ∈ p, a < counts.length) →
      product counts p = specCount counts p := by
  induction p with
  | nil => intro counts _; rw [specCount_nil]; rfl
  | cons a rest ih =>
    intro counts h
    have ha : a < counts.length := h a (List.mem_cons_self a rest)
    rw [specCount_cons counts a rest ha]
    show counts.getD a 0 * product (counts.set a (counts.getD a 0 - 1)) rest = _
    congr 1
    refine ih _ ?_
    intro b hb
    rw [List.length_set]
    exact h b (List.mem_cons_of_mem a hb)

/-- C1: `generatePermutations(counts, k)` returns exactly the distinct
ordered sequences of `k` letters drawable without replacement from the
multiset `counts` — none missing, none repeated — each paired with the
product of falling multiplicities. (Determinism over identical inputs is
automatic for the pure embedding.) -/
theorem generatePermutations_correct (counts : List Int) (k : Nat)
    (hpos : ∀ x ∈ counts, 0 ≤ x) (hk : (k : Int) ≤ counts.sum) :
    (∀ (p : List Nat) (c : Int),
        ((⟨p, c⟩ : Permutation) ∈ generatePermutations counts k ↔
          (p.length = k ∧ (∀ i, ((p.count i : Int) ≤ counts.getD i 0)) ∧
            c = specCount counts p))) ∧
      ((generatePermutations counts k).map (fun pr => pr.perm)).Nodup := by
  constructor
  · intro p c
    rw [generatePermutations, generate_mem k counts counts [] p c hpos]
    constructor
    · rintro ⟨q, hp, hq, hcnt, hc⟩
      simp only [List.nil_append] at hp hc
      subst hp
      have hrange : ∀ a ∈ p, a < counts.length := by
        intro a ha
        have h1 : 0 < p.count a := List.count_pos_iff.mpr ha
        have h2 := hcnt a
        refine lt_length_of_getD_ne counts a ?_
        have h3 : (0:Int) < (p.count a : Int) := by exact_mod_cast h1
        omega
      exact ⟨hq, hcnt, by rw [hc, product_eq_specCount p counts hrange]⟩
    · rintro ⟨hlen, hcnt, hc⟩
      refine ⟨p, rfl, hlen, hcnt, ?_⟩
      have hrange : ∀ a ∈ p, a < counts.length := by
        intro a ha
        have h1 : 0 < p.count a := List.count_pos_iff.mpr ha
        have h2 := hcnt a
        refine lt_length_of_getD_ne counts a ?_
        have : (0:Int) < (p.count a : Int) := by exact_mod_cast h1
        omega
      rw [List.nil_append, product_eq_specCount p counts hrange, hc]
  · exact generate_nodup k counts counts []

/-- Witness: the theorem applied at `counts = [2, 1]`, `k = 2`. -/
theorem generatePermutations_correct_witness :
    (∀ x ∈ ([2, 1] : List Int), 0 ≤ x) ∧ ((2 : Nat) : Int) ≤ ([2, 1] : List Int).sum ∧
      ((∀ (p : List Nat) (c : Int),
          ((⟨p, c⟩ : Permutation) ∈ generatePermutations [2, 1] 2 ↔
            (p.length = 2 ∧ (∀ i, ((p.count i : Int) ≤ ([2, 1] : List Int).getD i 0)) ∧
              c = specCount [2, 1] p))) ∧
        ((generatePermutations [2, 1] 2).map (fun pr => pr.perm)).Nodup) :=
  ⟨by decide, by decide,
    generatePermutations_correct [2, 1] 2 (by decide) (by decide)⟩

end Peg

/-! ## Negamax endgame solver (endgame/negamax package) -/

namespace Negamax

def HugeNumber : Int := 32767

def EarlyPassOffset : Int := 21000

def HashMoveOffset : Int := 6000

/-- Modelled from the spec: the reserved invalid value of the compact move
encoding (the tinymove package is not part of this repository's sources);
any value distinct from the encodings of real moves serves. -/
def InvalidTinyMove : Nat := 2 ^ 63

/-- A `tinymove.SmallMove` as the solver reads it: its score, the number of
tiles it plays, whether it is a pass, and its compact `TinyMove` encoding.
The mutable estimated value lives outside the move in this embedding. -/
structure SmallMove where
  score : Int
  tilesPlayed : Nat
  isPass : Bool
  tiny : Nat
  deriving DecidableEq, Repr

/-- The zero value of `tinymove.SmallMove` (`var bestMove tinymove.SmallMove`). -/
def zeroMove : SmallMove := ⟨0, 0, false, 0⟩

/-- Modelled from the spec: a transposition-table entry stores the
spread-relative score, one flag-and-depth byte (top 2 bits the bound flag
with Exact = 0, Lower = 1, Upper = 2, Invalid = 3; low 6 bits the depth)
and the compact best move. The packing `flag<<6 + uint8(depth)` written at
store time is from `solver.go` itself. -/
structure TableEntry where
  score : Int
  flagAndDepth : Nat
  play : Nat
  deriving DecidableEq, Repr

def TTExact : Nat := 0

def TTLower : Nat := 1

def TTUpper : Nat := 2

/-- The entry's bound flag: top 2 bits of the flag-and-depth byte. -/
def entryFlag (e : TableEntry) : Nat := e.flagAndDepth / 64

/-- The entry's stored depth: low 6 bits of the flag-and-depth byte. -/
def entryDepth (e : TableEntry) : Nat := e.flagAndDepth % 64

/-- Modelled from the spec: the table as a map from keys to entries;
`none` models a probe the `valid()` check rejects. -/
abbrev TTable : Type := Nat → Option TableEntry

def ttStore (tt : TTable) (k : Nat) (e : TableEntry) : TTable :=
  fun j => if j = k then some e else tt j

/-- The game-state collaborator as the solver consumes it: on-turn spread,
play state, move generation, making a move, rack sizes and scores, the
scoreless-turn counters and the incremental child-key computation. -/
structure GameOps (σ : Type) where
  onTurnSpread : σ → Int
  playing : σ → Bool
  genPlays : σ → List SmallMove
  play : σ → SmallMove → σ
  rackNumTiles : σ → Nat
  oppRackScore : σ → Int
  scorelessTurns : σ → Nat
  lastScorelessTurns : σ → Nat
  addMoveKey : Nat → SmallMove → σ → Nat

/-- Solver configuration bits read by `negamax`: the transposition-table
and early-pass toggles, the current iterative-deepening depth for this
thread and the pre-generated root move list. -/
structure NegaCfg where
  ttOptim : Bool
  earlyPassOptim : Bool
  idDepth : Nat
  initialMoves : List SmallMove

/-- The `assignEstimates` base value: full-rack plays get twice the opponent
rack score, deep nodes get a tiles-played bonus, otherwise the bare score
(all in Go `int16`). -/
def baseEstimate (depth numTilesOnRack : Nat) (oppScore : Int) (m : SmallMove) : Int :=
  if m.tilesPlayed = numTilesOnRack then i16 (m.score + 2 * oppScore)
  else if 2 < depth then i16 (m.score + 3 * (m.tilesPlayed : Int))
  else i16 m.score

/-- The full ordering value of one move in `assignEstimates`: the base
estimate plus the hash-move bonus plus the early-pass bonus. -/
def estimateOf (earlyPass lastMoveWasPass : Bool) (depth numTilesOnRack : Nat)
    (oppScore : Int) (ttMove : Nat) (m : SmallMove) : Int :=
  let e0 := baseEstimate depth numTilesOnRack oppScore m
  let e1 := if m.tiny = ttMove then i16 (e0 + HashMoveOffset) else e0
  if earlyPass && lastMoveWasPass && m.isPass then i16 (e1 + EarlyPassOffset) else e1

/-- Descending order on estimated values, the comparator of the
`sort.Slice` call in `assignEstimates`. -/
def estDescOrder (p q : SmallMove × Int) : Prop := q.2 ≤ p.2

instance : DecidableRel estDescOrder :=
  fun p q => inferInstanceAs (Decidable (q.2 ≤ p.2))

instance : IsTotal (SmallMove × Int) estDescOrder :=
  ⟨fun a b => le_total b.2 a.2⟩

instance : IsTrans (SmallMove × Int) estDescOrder :=
  ⟨fun _ _ _ hab hbc => le_trans hbc hab⟩

/-- Operation `Solver.assignEstimates` from the source: pair every move with its
ordering value, then sort descending by that value (the Go code sorts in
place with an unstable `sort.Slice`; the embedding picks insertion sort as
its deterministic realization). -/
def assignEstimates (earlyPass lastMoveWasPass : Bool) (depth numTilesOnRack : Nat)
    (oppScore : Int) (ttMove : Nat) (moves : List SmallMove) :
    List (SmallMove × Int) :=
  List.insertionSort estDescOrder
    (moves.map (fun m => (m, estimateOf earlyPass lastMoveWasPass depth
      numTilesOnRack oppScore ttMove m)))

/-- Result of the transposition-table probe at the head of `negamax`:
either an early return with a value and the entry's move for the PV, or a
continuation with possibly tightened bounds and the hash-move hint. -/
inductive ProbeRes where
  | ret (v : Int) (mv : Nat)
  | cont (a b : Int) (ttMove : Nat)
  deriving DecidableEq, Repr

/-- The TT probe of `negamax` (lines 523-565 of `solver.go`): on a valid
entry of sufficient depth, add the on-turn spread back to the stored score
and apply bound semantics. -/
def ttProbe (tt : TTable) (key depth : Nat) (spread a b : Int) : ProbeRes :=
  match tt key with
  | none => .cont a b InvalidTinyMove
  | some e =>
    if depth % 256 ≤ entryDepth e then
      let score := i16 (e.score + i16 spread)
      if entryFlag e = TTExact then .ret score e.play
      else
        let a1 := if entryFlag e = TTLower then max a score else a
        let b1 := if entryFlag e = TTUpper then min b score else b
        if b1 ≤ a1 then .ret score e.play
        else .cont a1 b1 e.play
    else .cont a b InvalidTinyMove

/-- The probe as guarded by the `transpositionTableOptim` flag. -/
def probeOf (c : NegaCfg) (tt : TTable) (key depth : Nat) (spread a b : Int) :
    ProbeRes :=
  if c.ttOptim then ttProbe tt key depth spread a b else .cont a b InvalidTinyMove

/-- What one `negamax` call returns and observably does: the value, the
table after the call, the principal variation (as compact encodings), the
best move of the child loop, the number of moves played (`s.nodes`), the
number of move-generation calls, and the error flag. -/
structure NMRes where
  value : Int
  tt : TTable
  pv : List Nat
  bestMove : SmallMove
  nodes : Nat
  gens : Nat
  err : Bool

/-- Accumulator of the child loop: best value and move, the running alpha,
the table, the PV, the node counters and the error state. -/
structure LoopAcc where
  best : Int
  bestMove : SmallMove
  a : Int
  tt : TTable
  pv : List Nat
  nodes : Nat
  gens : Nat
  err : Bool
  errVal : Int

/-- The child loop of `negamax` (lines 590-635 of `solver.go`): play each
child, recurse with negated window, unplay, track the best value and move,
raise alpha, and stop at a beta cutoff. -/
def negamaxLoop {σ : Type} (G : GameOps σ)
    (recur : Nat → σ → TTable → Int → Int → NMRes) (ttOn : Bool)
    (key : Nat) (s : σ) (b : Int) : List SmallMove → LoopAcc → LoopAcc
  | [], acc => acc
  | m :: rest, acc =>
    let s' := G.play s m
    let childKey := if ttOn then G.addMoveKey key m s' else 0
    let r := recur childKey s' acc.tt (i16 (-b)) (i16 (-acc.a))
    if r.err then
      { acc with
        tt := r.tt,
        nodes := acc.nodes + 1 + r.nodes,
        gens := acc.gens + r.gens,
        err := true,
        errVal := r.value }
    else
      let negv := i16 (- r.value)
      let acc1 :=
        if acc.best < negv then
          { acc with best := negv, bestMove := m, pv := m.tiny :: r.pv }
        else acc
      let acc2 :=
        { acc1 with
          a := max acc1.a acc1.best,
          tt := r.tt,
          nodes := acc.nodes + 1 + r.nodes,
          gens := acc.gens + r.gens }
      if b ≤ acc2.best then acc2
      else negamaxLoop G recur ttOn key s b rest acc2

/-- The tail of the `negamax` node (lines 636-658 of `solver.go`): on an
error from the child loop propagate it; otherwise, with the transposition
table enabled, store the spread-relative score, the `flag<<6 + uint8(depth)`
byte and the best move under the node key, and return the best value. -/
def storeResult (ttOn : Bool) (key depth : Nat) (spread aOrig b1 : Int)
    (acc : LoopAcc) : NMRes :=
  if acc.err then
    ⟨acc.errVal, acc.tt, acc.pv, acc.bestMove, acc.nodes, acc.gens, true⟩
  else
    let tt1 :=
      if ttOn then
        let score := i16 (acc.best - i16 spread)
        let flag := if acc.best ≤ aOrig then TTUpper
          else if b1 ≤ acc.best then TTLower else TTExact
        ttStore acc.tt key
          ⟨score, (flag * 64 + depth % 256) % 256, acc.bestMove.tiny⟩
      else acc.tt
    ⟨acc.best, tt1, acc.pv, acc.bestMove, acc.nodes, acc.gens, false⟩

/-- The remainder of `Solver.negamax` after the TT probe: on an early
probe return propagate its value and materialize its move into the PV;
otherwise run the leaf test, child generation and ordering, the child loop
and the TT store. `aOrig` is the alpha in force at node entry
(`alphaOrig` in the source, saved before the probe adjusts the window). -/
def afterProbe {σ : Type} (G : GameOps σ) (c : NegaCfg)
    (recur : Nat → σ → TTable → Int → Int → NMRes) (depth key : Nat)
    (s : σ) (tt : TTable) (aOrig : Int) : ProbeRes → NMRes
  | .ret v mv => ⟨v, tt, [mv], zeroMove, 0, 0, false⟩
  | .cont a1 b1 ttMove =>
    if depth = 0 ∨ G.playing s = false then
      ⟨i16 (G.onTurnSpread s), tt, [], zeroMove, 0, 0, false⟩
    else
      let isRoot := c.idDepth = depth
      let children :=
        if isRoot then c.initialMoves
        else
          (assignEstimates c.earlyPassOptim
            (decide (G.lastScorelessTurns s < G.scorelessTurns s)) depth
            (G.rackNumTiles s) (G.oppRackScore s) ttMove (G.genPlays s)).map
            Prod.fst
      storeResult c.ttOptim key depth (G.onTurnSpread s) aOrig b1
        (negamaxLoop G recur c.ttOptim key s b1 children
          ⟨-HugeNumber, zeroMove, a1, tt, [], 0, if isRoot then 0 else 1, false, 0⟩)

/-- The body of `Solver.negamax` (lines 505-658 of `solver.go`), with the
recursive call abstracted: cancellation check, then TT probe, then the
rest of the node. -/
def negamaxBody {σ : Type} (G : GameOps σ) (c : NegaCfg) (cancelled : Bool)
    (recur : Nat → σ → TTable → Int → Int → NMRes) (depth key : Nat)
    (s : σ) (tt : TTable) (a b : Int) : NMRes :=
  if cancelled then ⟨0, tt, [], zeroMove, 0, 0, true⟩
  else
    afterProbe G c recur depth key s tt a
      (probeOf c tt key depth (G.onTurnSpread s) a b)

/-- Operation `Solver.negamax`, by recursion on the remaining depth. -/
def negamax {σ : Type} (G : GameOps σ) (c : NegaCfg) (cancelled : Bool) :
    Nat → Nat → σ → TTable → Int → Int → NMRes
  | 0, key, s, tt, a, b =>
    negamaxBody G c cancelled (fun _ _ tt' _ _ => ⟨0, tt', [], zeroMove, 0, 0, true⟩)
      0 key s tt a b
  | Nat.succ d, key, s, tt, a, b =>
    negamaxBody G c cancelled (negamax G c cancelled d) (d + 1) key s tt a b

/-- The child loop never sets the error flag when the recursive calls are
error-free. -/
theorem negamaxLoop_err {σ : Type} (G : GameOps σ)
    (recur : Nat → σ → TTable → Int → Int → NMRes) (ttOn : Bool)
    (key : Nat) (s : σ) (b : Int)
    (hrec : ∀ k s' tt' a' b', (recur k s' tt' a' b').err = false) :
    ∀ (children : List SmallMove) (acc : LoopAcc),
      (negamaxLoop G recur ttOn key s b children acc).err = acc.err := by
  intro children
  induction children with
  | nil => intro acc; rfl
  | cons m rest ih =>
    intro acc
    have hstep := hrec (if ttOn = true then G.addMoveKey key m (G.play s m) else 0)
      (G.play s m) acc.tt (i16 (-b)) (i16 (-acc.a))
    simp only [negamaxLoop]
    generalize hR : recur (if ttOn = true then G.addMoveKey key m (G.play s m) else 0)
      (G.play s m) acc.tt (i16 (-b)) (i16 (-acc.a)) = R
    rw [hR] at hstep
    rw [hstep]
    simp only [Bool.false_eq_true, if_false]
    by_cases h1 : acc.best < i16 (-R.value)
    · rw [if_pos h1]
      dsimp only
      by_cases h2 : b ≤ i16 (-R.value)
      · rw [if_pos h2]
      · rw [if_neg h2, ih]
    · rw [if_neg h1]
      dsimp only
      by_cases h2 : b ≤ acc.best
      · rw [if_pos h2]
      · rw [if_neg h2, ih]

/-- With cancellation off, `negamax` never reports an error. -/
theorem negamax_err_false {σ : Type} (G : GameOps σ) (c : NegaCfg) :
    ∀ (d key : Nat) (s : σ) (tt : TTable) (a b : Int),
      (negamax G c false d key s tt a b).err = false := by
  intro d
  induction d with
  | zero =>
    intro key s tt a b
    simp only [negamax, negamaxBody, Bool.false_eq_true, if_false]
    cases hp : probeOf c tt key 0 (G.onTurnSpread s) a b with
    | ret v mv => simp [afterProbe]
    | cont a1 b1 tm => simp [afterProbe]
  | succ d ih =>
    intro key s tt a b
    simp only [negamax, negamaxBody, Bool.false_eq_true, if_false]
    cases hp : probeOf c tt key (d + 1) (G.onTurnSpread s) a b with
    | ret v mv => simp [afterProbe]
    | cont a1 b1 tm =>
      simp only [afterProbe]
      by_cases hl : (d + 1 = 0 ∨ G.playing s = false)
      · rw [if_pos hl]
      · rw [if_neg hl]
        simp only [storeResult, negamaxLoop_err G _ c.ttOptim key s b1
          (fun k s' tt' a' b' => ih k s' tt' a' b'), Bool.false_eq_true, if_false]

/-- C5 (amended): at a node of remaining depth 0, or a terminal node, where
the transposition-table probe does not return early (in particular whenever
the table is disabled or misses), `negamax` returns the current on-turn
spread as an int16, plays no move (`nodes` stays 0), generates no moves
(`gens` stays 0) and leaves the table untouched. -/
theorem negamax_leaf {σ : Type} (G : GameOps σ) (c : NegaCfg) (depth key : Nat)
    (s : σ) (tt : TTable) (a b a1 b1 : Int) (tm : Nat)
    (hprobe : probeOf c tt key depth (G.onTurnSpread s) a b = .cont a1 b1 tm)
    (hleaf : depth = 0 ∨ G.playing s = false) :
    negamax G c false depth key s tt a b =
      ⟨i16 (G.onTurnSpread s), tt, [], zeroMove, 0, 0, false⟩ := by
  cases depth with
  | zero =>
    simp only [negamax, negamaxBody, Bool.false_eq_true, if_false]
    rw [hprobe]
    simp [afterProbe]
  | succ d =>
    have hpl : G.playing s = false := by
      rcases hleaf with h | h
      · exact absurd h (Nat.succ_ne_zero d)
      · exact h
    simp only [negamax, negamaxBody, Bool.false_eq_true, if_false]
    rw [hprobe]
    simp [afterProbe, hpl]

/-- A one-state game used for concrete instantiations: spread 5, still
playing, one available move. -/
def UGame : GameOps Unit where
  onTurnSpread := fun _ => 5
  playing := fun _ => true
  genPlays := fun _ => [⟨10, 1, false, 3⟩]
  play := fun s _ => s
  rackNumTiles := fun _ => 2
  oppRackScore := fun _ => 4
  scorelessTurns := fun _ => 0
  lastScorelessTurns := fun _ => 0
  addMoveKey := fun _ _ _ => 1

/-- A configuration with the transposition table and early pass on and a
non-root iterative-deepening depth. -/
def cfgT : NegaCfg := ⟨true, true, 99, []⟩

/-- A table holding an Exact entry of score 7 and depth 0 at key 0. -/
def ttX : TTable := fun k => if k = 0 then some ⟨7, 0, 0⟩ else none

/-- C5 counterexample: at a depth-0 node with the transposition table
enabled and a valid Exact entry at the node key, `negamax` returns the
stored score plus the spread (12), not the current on-turn spread (5): the
probe precedes the leaf test in the source. -/
theorem negamax_leaf_counterexample :
    (negamax UGame cfgT false 0 0 () ttX (-HugeNumber) HugeNumber).value ≠
      i16 (UGame.onTurnSpread ()) := by
  decide

/-- Witness for the amended leaf theorem: a depth-0 node over an empty
table returns the spread and touches nothing. -/
theorem negamax_leaf_witness :
    probeOf cfgT (fun _ => none) 0 0 (UGame.onTurnSpread ()) (-HugeNumber)
        HugeNumber =
      ProbeRes.cont (-HugeNumber) HugeNumber InvalidTinyMove ∧
    ((0 : Nat) = 0 ∨ UGame.playing () = false) ∧
    negamax UGame cfgT false 0 0 () (fun _ => none) (-HugeNumber) HugeNumber =
      ⟨i16 (UGame.onTurnSpread ()), fun _ => none, [], zeroMove, 0, 0, false⟩ :=
  ⟨by decide, Or.inl rfl,
    negamax_leaf UGame cfgT 0 0 () (fun _ => none) (-HugeNumber) HugeNumber
      (-HugeNumber) HugeNumber InvalidTinyMove (by decide) (Or.inl rfl)⟩

/-- What the store step leaves in the table when the loop was error-free:
the entry under the node key has the spread-relative score, the packed
flag-and-depth byte and the best move's encoding. -/
theorem storeResult_spec (key depth : Nat) (spread aOrig b1 : Int) (acc : LoopAcc)
    (hAerr : acc.err = false) :
    ∃ e : TableEntry,
      (storeResult true key depth spread aOrig b1 acc).tt key = some e ∧
      e.score =
        i16 ((storeResult true key depth spread aOrig b1 acc).value - i16 spread) ∧
      e.flagAndDepth =
        ((if (storeResult true key depth spread aOrig b1 acc).value ≤ aOrig then
            TTUpper
          else if b1 ≤ (storeResult true key depth spread aOrig b1 acc).value then
            TTLower
          else TTExact) * 64 + depth % 256) % 256 ∧
      e.play = (storeResult true key depth spread aOrig b1 acc).bestMove.tiny := by
  refine ⟨⟨i16 (acc.best - i16 spread),
    ((if acc.best ≤ aOrig then TTUpper else if b1 ≤ acc.best then TTLower
      else TTExact) * 64 + depth % 256) % 256, acc.bestMove.tiny⟩, ?_, ?_, ?_, ?_⟩ <;>
    simp [storeResult, hAerr, ttStore]

/-- C4: whenever `negamax` completes its child loop with the transposition
table enabled (no cancellation, no early probe return, a non-terminal node
of positive depth), the entry stored under the node key holds the best
value minus the current on-turn spread, the bound flag Upper/Lower/Exact
according to the alpha in force at node entry and the (probe-adjusted)
beta, the node depth, and the best move found. -/
theorem negamax_store {σ : Type} (G : GameOps σ) (c : NegaCfg) (d key : Nat)
    (s : σ) (tt : TTable) (a b a1 b1 : Int) (tm : Nat)
    (htt : c.ttOptim = true)
    (hprobe : probeOf c tt key (d + 1) (G.onTurnSpread s) a b = .cont a1 b1 tm)
    (hpl : G.playing s = true)
    (hd : d + 1 ≤ 63)
    (hs1 : -32768 ≤ G.onTurnSpread s) (hs2 : G.onTurnSpread s ≤ 32767)
    (hv1 : -32768 ≤ (negamax G c false (d + 1) key s tt a b).value - G.onTurnSpread s)
    (hv2 : (negamax G c false (d + 1) key s tt a b).value - G.onTurnSpread s ≤ 32767) :
    ∃ e : TableEntry,
      (negamax G c false (d + 1) key s tt a b).tt key = some e ∧
      e.score = (negamax G c false (d + 1) key s tt a b).value - G.onTurnSpread s ∧
      entryFlag e =
        (if (negamax G c false (d + 1) key s tt a b).value ≤ a then TTUpper
         else if b1 ≤ (negamax G c false (d + 1) key s tt a b).value then TTLower
         else TTExact) ∧
      entryDepth e = d + 1 ∧
      e.play = (negamax G c false (d + 1) key s tt a b).bestMove.tiny := by
  have hcond : ¬ (d + 1 = 0 ∨ G.playing s = false) := by simp [hpl]
  have hred : negamax G c false (d + 1) key s tt a b =
      storeResult true key (d + 1) (G.onTurnSpread s) a b1
        (negamaxLoop G (negamax G c false d) c.ttOptim key s b1
          (if c.idDepth = d + 1 then c.initialMoves
           else
             (assignEstimates c.earlyPassOptim
               (decide (G.lastScorelessTurns s < G.scorelessTurns s)) (d + 1)
               (G.rackNumTiles s) (G.oppRackScore s) tm (G.genPlays s)).map
               Prod.fst)
          ⟨-HugeNumber, zeroMove, a1, tt, [], 0, if c.idDepth = d + 1 then 0 else 1,
            false, 0⟩) := by
    conv_lhs => rw [negamax]
    simp only [negamaxBody, Bool.false_eq_true, if_false]
    rw [hprobe]
    simp only [afterProbe]
    rw [if_neg hcond, htt]
  have hAerr : (negamaxLoop G (negamax G c false d) c.ttOptim key s b1
      (if c.idDepth = d + 1 then c.initialMoves
       else
         (assignEstimates c.earlyPassOptim
           (decide (G.lastScorelessTurns s < G.scorelessTurns s)) (d + 1)
           (G.rackNumTiles s) (G.oppRackScore s) tm (G.genPlays s)).map
           Prod.fst)
      ⟨-HugeNumber, zeroMove, a1, tt, [], 0, if c.idDepth = d + 1 then 0 else 1,
        false, 0⟩).err = false := by
    rw [negamaxLoop_err G _ c.ttOptim key s b1
      (fun k s' tt' a' b' => negamax_err_false G c d k s' tt' a' b')]
  obtain ⟨e, h1, h2, h3, h4⟩ :=
    storeResult_spec key (d + 1) (G.onTurnSpread s) a b1 _ hAerr
  rw [← hred] at h1 h2 h3 h4
  refine ⟨e, h1, ?_, ?_, ?_, h4⟩
  · rw [h2, i16_of_range (G.onTurnSpread s) hs1 hs2]
    exact i16_of_range _ hv1 hv2
  · have h256 : (d + 1) % 256 = d + 1 := Nat.mod_eq_of_lt (by omega)
    rw [h256] at h3
    set F := (if (negamax G c false (d + 1) key s tt a b).value ≤ a then TTUpper
      else if b1 ≤ (negamax G c false (d + 1) key s tt a b).value then TTLower
      else TTExact) with hF
    have hFle : F ≤ 2 := by
      rw [hF]
      split_ifs <;> simp [TTUpper, TTLower, TTExact]
    simp only [entryFlag]
    rw [h3]
    omega
  · have h256 : (d + 1) % 256 = d + 1 := Nat.mod_eq_of_lt (by omega)
    rw [h256] at h3
    set F := (if (negamax G c false (d + 1) key s tt a b).value ≤ a then TTUpper
      else if b1 ≤ (negamax G c false (d + 1) key s tt a b).value then TTLower
      else TTExact) with hF
    have hFle : F ≤ 2 := by
      rw [hF]
      split_ifs <;> simp [TTUpper, TTLower, TTExact]
    simp only [entryDepth]
    rw [h3]
    omega

/-- Witness: the store theorem applied at a concrete one-move game at
depth 1 over an empty table. -/
theorem negamax_store_witness :
    cfgT.ttOptim = true ∧
    probeOf cfgT (fun _ => none) 0 1 (UGame.onTurnSpread ()) (-HugeNumber)
        HugeNumber =
      ProbeRes.cont (-HugeNumber) HugeNumber InvalidTinyMove ∧
    UGame.playing () = true ∧
    (0 : Nat) + 1 ≤ 63 ∧
    -32768 ≤ UGame.onTurnSpread () ∧ UGame.onTurnSpread () ≤ 32767 ∧
    -32768 ≤ (negamax UGame cfgT false 1 0 () (fun _ => none) (-HugeNumber)
        HugeNumber).value - UGame.onTurnSpread () ∧
    (negamax UGame cfgT false 1 0 () (fun _ => none) (-HugeNumber)
        HugeNumber).value - UGame.onTurnSpread () ≤ 32767 ∧
    (∃ e : TableEntry,
      (negamax UGame cfgT false 1 0 () (fun _ => none) (-HugeNumber)
          HugeNumber).tt 0 = some e ∧
      e.score = (negamax UGame cfgT false 1 0 () (fun _ => none) (-HugeNumber)
          HugeNumber).value - UGame.onTurnSpread () ∧
      entryFlag e =
        (if (negamax UGame cfgT false 1 0 () (fun _ => none) (-HugeNumber)
            HugeNumber).value ≤ -HugeNumber then TTUpper
         else if HugeNumber ≤ (negamax UGame cfgT false 1 0 () (fun _ => none)
            (-HugeNumber) HugeNumber).value then TTLower
         else TTExact) ∧
      entryDepth e = 0 + 1 ∧
      e.play = (negamax UGame cfgT false 1 0 () (fun _ => none) (-HugeNumber)
          HugeNumber).bestMove.tiny) :=
  ⟨by decide, by decide, by decide, by decide, by decide, by decide, by decide,
    by decide,
    negamax_store UGame cfgT 0 0 () (fun _ => none) (-HugeNumber) HugeNumber
      (-HugeNumber) HugeNumber InvalidTinyMove (by decide) (by decide) (by decide)
      (by decide) (by decide) (by decide) (by decide) (by decide)⟩

/-- The ordering value as the spec words it: base value by full-rack /
depth cases, plus 6000 for the hash-move hint, plus 21000 for a pass
answering a pass with early-pass enabled. -/
def specEstimate (earlyPass lastMoveWasPass : Bool) (depth numTilesOnRack : Nat)
    (oppScore : Int) (ttMove : Nat) (m : SmallMove) : Int :=
  (if m.tilesPlayed = numTilesOnRack then m.score + 2 * oppScore
   else if 2 < depth then m.score + 3 * (m.tilesPlayed : Int)
   else m.score) +
  (if m.tiny = ttMove then HashMoveOffset else 0) +
  (if earlyPass && lastMoveWasPass && m.isPass then EarlyPassOffset else 0)

/-- Within int16 range, the computed estimate equals the spec's formula. -/
theorem estimateOf_eq_spec (earlyPass lastMoveWasPass : Bool)
    (depth numTilesOnRack : Nat) (oppScore : Int) (ttMove : Nat) (m : SmallMove)
    (h1 : 0 ≤ m.score) (h2 : m.score ≤ 2000) (h3 : m.tilesPlayed ≤ 7)
    (h4 : 0 ≤ oppScore) (h5 : oppScore ≤ 1000) :
    estimateOf earlyPass lastMoveWasPass depth numTilesOnRack oppScore ttMove m =
      specEstimate earlyPass lastMoveWasPass depth numTilesOnRack oppScore
        ttMove m := by
  have hc : ((m.tilesPlayed : Int)) ≤ 7 := by exact_mod_cast h3
  have hc0 : (0 : Int) ≤ (m.tilesPlayed : Int) := by exact_mod_cast Nat.zero_le _
  have hb : baseEstimate depth numTilesOnRack oppScore m =
      (if m.tilesPlayed = numTilesOnRack then m.score + 2 * oppScore
       else if 2 < depth then m.score + 3 * (m.tilesPlayed : Int)
       else m.score) := by
    unfold baseEstimate
    split_ifs <;> rw [i16_of_range _ (by omega) (by omega)]
  have hb0 : 0 ≤ baseEstimate depth numTilesOnRack oppScore m := by
    rw [hb]; split_ifs <;> omega
  have hb4 : baseEstimate depth numTilesOnRack oppScore m ≤ 4000 := by
    rw [hb]; split_ifs <;> omega
  unfold estimateOf specEstimate
  simp only [HashMoveOffset, EarlyPassOffset]
  by_cases hT : m.tiny = ttMove
  · by_cases hP : (earlyPass && lastMoveWasPass && m.isPass) = true
    · simp only [if_pos hT, if_pos hP]
      rw [i16_of_range (baseEstimate depth numTilesOnRack oppScore m + 6000)
        (by omega) (by omega)]
      rw [i16_of_range _ (by omega) (by omega), hb]
    · simp only [if_pos hT, if_neg hP]
      rw [i16_of_range (baseEstimate depth numTilesOnRack oppScore m + 6000)
        (by omega) (by omega), hb]
      ring
  · by_cases hP : (earlyPass && lastMoveWasPass && m.isPass) = true
    · simp only [if_neg hT, if_pos hP]
      rw [i16_of_range (baseEstimate depth numTilesOnRack oppScore m + 21000)
        (by omega) (by omega), hb]
      ring
    · simp only [if_neg hT, if_neg hP]
      rw [hb]
      ring

/-- C6: `assignEstimates` tags every move with the spec's ordering value
(within int16 range) and returns a permutation of the input sorted
descending by that value. -/
theorem assignEstimates_correct (earlyPass lastMoveWasPass : Bool)
    (depth numTilesOnRack : Nat) (oppScore : Int) (ttMove : Nat)
    (moves : List SmallMove)
    (hs : ∀ m ∈ moves, 0 ≤ m.score ∧ m.score ≤ 2000)
    (ht : ∀ m ∈ moves, m.tilesPlayed ≤ 7)
    (ho1 : 0 ≤ oppScore) (ho2 : oppScore ≤ 1000) :
    (∀ p ∈ assignEstimates earlyPass lastMoveWasPass depth numTilesOnRack
        oppScore ttMove moves,
      p.2 = specEstimate earlyPass lastMoveWasPass depth numTilesOnRack
        oppScore ttMove p.1) ∧
    ((assignEstimates earlyPass lastMoveWasPass depth numTilesOnRack oppScore
        ttMove moves).map Prod.fst).Perm moves ∧
    List.Sorted estDescOrder
      (assignEstimates earlyPass lastMoveWasPass depth numTilesOnRack oppScore
        ttMove moves) := by
  refine ⟨?_, ?_, List.sorted_insertionSort estDescOrder _⟩
  · intro p hp
    have hp' : p ∈ moves.map (fun m => (m, estimateOf earlyPass lastMoveWasPass
        depth numTilesOnRack oppScore ttMove m)) :=
      (List.perm_insertionSort estDescOrder _).mem_iff.mp hp
    obtain ⟨m, hm, hpm⟩ := List.mem_map.mp hp'
    rw [← hpm]
    exact estimateOf_eq_spec earlyPass lastMoveWasPass depth numTilesOnRack
      oppScore ttMove m (hs m hm).1 (hs m hm).2 (ht m hm) ho1 ho2
  · have hperm := (List.perm_insertionSort estDescOrder
      (moves.map (fun m => (m, estimateOf earlyPass lastMoveWasPass depth
        numTilesOnRack oppScore ttMove m)))).map Prod.fst
    refine hperm.trans ?_
    rw [List.map_map]
    have hid : (Prod.fst ∘ fun m : SmallMove => (m, estimateOf earlyPass
        lastMoveWasPass depth numTilesOnRack oppScore ttMove m)) = id := rfl
    rw [hid, List.map_id]

/-- Witness: the ordering theorem applied at a concrete two-move list. -/
theorem assignEstimates_correct_witness :
    (∀ m ∈ [(⟨10, 1, false, 3⟩ : SmallMove), ⟨50, 2, false, 4⟩],
        0 ≤ m.score ∧ m.score ≤ 2000) ∧
    (∀ m ∈ [(⟨10, 1, false, 3⟩ : SmallMove), ⟨50, 2, false, 4⟩],
        m.tilesPlayed ≤ 7) ∧
    (0 : Int) ≤ 4 ∧ (4 : Int) ≤ 1000 ∧
    ((∀ p ∈ assignEstimates true true 3 2 4 3
        [(⟨10, 1, false, 3⟩ : SmallMove), ⟨50, 2, false, 4⟩],
      p.2 = specEstimate true true 3 2 4 3 p.1) ∧
    ((assignEstimates true true 3 2 4 3
        [(⟨10, 1, false, 3⟩ : SmallMove), ⟨50, 2, false, 4⟩]).map Prod.fst).Perm
      [(⟨10, 1, false, 3⟩ : SmallMove), ⟨50, 2, false, 4⟩] ∧
    List.Sorted estDescOrder
      (assignEstimates true true 3 2 4 3
        [(⟨10, 1, false, 3⟩ : SmallMove), ⟨50, 2, false, 4⟩])) :=
  ⟨by decide, by decide, by decide, by decide,
    assignEstimates_correct true true 3 2 4 3
      [(⟨10, 1, false, 3⟩ : SmallMove), ⟨50, 2, false, 4⟩]
      (by decide) (by decide) (by decide) (by decide)⟩

end Negamax

/-! ## Endgame solver entry points (`Solve`, `QuickAndDirtySolve`) -/

namespace Negamax

/-- Errors observable at the solver entry points: the two context errors
Go distinguishes by identity, the non-empty-bag precondition error, the
rack-randomization failure, and anything else. -/
inductive SolveErr where
  | canceled
  | deadlineExceeded
  | bagNotEmpty
  | rackRandomize
  | other (code : Nat)
  deriving DecidableEq, Repr

/-- The slice of game state the entry-point precondition checks read: the
bag and the two racks (tiles as raw letter codes). -/
structure SolveGame where
  bag : List Nat
  ourRack : List Nat
  oppRack : List Nat
  deriving DecidableEq, Repr

def RackTileLimit : Nat := 7

/-- Modelled from the spec: `SetRandomRack(player, nil)` redraws the
player's rack from the bag up to the rack tile limit (the game package is
not part of this repository's sources); it fails when the rack cannot be
randomized because no tile can be drawn. -/
def setRandomRackOther (g : SolveGame) : Except SolveErr SolveGame :=
  let drawn := g.bag.take RackTileLimit
  if drawn.length = 0 then .error .rackRandomize
  else .ok ⟨g.bag.drop RackTileLimit, g.ourRack, drawn⟩

/-- The precondition block shared verbatim by `Solve` and
`QuickAndDirtySolve`: randomize the opponent's rack if it is empty, then
reject a bag that still has tiles. -/
def solveChecks (g : SolveGame) : Except SolveErr SolveGame :=
  match (if g.oppRack.length = 0 then setRandomRackOther g else .ok g :
      Except SolveErr SolveGame) with
  | .error e => .error e
  | .ok g1 => if 0 < g1.bag.length then .error .bagNotEmpty else .ok g1

/-- What the abstracted search (`iterativelyDeepen`) leaves behind: the
accumulated principal variation, the best value found so far, and its
error if any. -/
structure SearchOutcome where
  pvMoves : List Nat
  bestPVValue : Int
  err : Option SolveErr
  deriving DecidableEq, Repr

/-- Operation `Solver.Solve` with the search abstracted: run the precondition
checks, search, read the best PV and value accumulated so far, and
swallow `context.Canceled` / `context.DeadlineExceeded` at the boundary
(lines 661-752 of `solver.go`). -/
def Solve (search : SolveGame → SearchOutcome) (g : SolveGame) :
    Int × Option (List Nat) × Option SolveErr :=
  match solveChecks g with
  | .error e => (0, none, some e)
  | .ok g1 =>
    let o := search g1
    let e : Option SolveErr :=
      match o.err with
      | some .canceled => none
      | some .deadlineExceeded => none
      | e' => e'
    (o.bestPVValue, some o.pvMoves, e)

/-- Operation `Solver.QuickAndDirtySolve` with the search abstracted: the same
precondition checks, then a single search whose error is returned as-is
(lines 758-831 of `solver.go`). -/
def QuickAndDirtySolve (search : SolveGame → SearchOutcome) (g : SolveGame) :
    Int × Option (List Nat) × Option SolveErr :=
  match solveChecks g with
  | .error e => (0, none, some e)
  | .ok g1 =>
    let o := search g1
    (o.bestPVValue, some o.pvMoves, o.err)

/-- C7 counterexample: a game with three tiles in the bag but an empty
opponent rack is NOT rejected: the rack randomization empties the bag
before the bag check runs, and the solve proceeds without error. -/
theorem solve_nonempty_bag_counterexample :
    0 < (SolveGame.mk [1, 2, 3] [4] []).bag.length ∧
    (Solve (fun _ => ⟨[7], 42, none⟩) ⟨[1, 2, 3], [4], []⟩).2.2 = none ∧
    (QuickAndDirtySolve (fun _ => ⟨[7], 42, none⟩) ⟨[1, 2, 3], [4], []⟩).2.2 =
      none := by
  refine ⟨by decide, by decide, by decide⟩

/-- C7 (amended): when the opponent's rack is non-empty (so no
randomization can drain the bag) and the bag still has a tile, both entry
points return score zero, no move sequence and the non-empty-bag error,
whatever the search would do (no search is performed). -/
theorem solve_gate (search : SolveGame → SearchOutcome) (g : SolveGame)
    (hr : g.oppRack ≠ []) (hb : g.bag ≠ []) :
    Solve search g = (0, none, some .bagNotEmpty) ∧
    QuickAndDirtySolve search g = (0, none, some .bagNotEmpty) := by
  have h1 : ¬ g.oppRack.length = 0 := by
    simpa using hr
  have h2 : 0 < g.bag.length := List.length_pos.mpr hb
  unfold Solve QuickAndDirtySolve solveChecks
  rw [if_neg h1]
  constructor <;> simp [h2]

/-- Witness: the gate theorem applied at bag `[1]`, racks `[2]`/`[3]`. -/
theorem solve_gate_witness :
    (SolveGame.mk [1] [2] [3]).oppRack ≠ [] ∧
    (SolveGame.mk [1] [2] [3]).bag ≠ [] ∧
    (Solve (fun _ => ⟨[7], 42, none⟩) ⟨[1], [2], [3]⟩ =
        (0, none, some .bagNotEmpty) ∧
      QuickAndDirtySolve (fun _ => ⟨[7], 42, none⟩) ⟨[1], [2], [3]⟩ =
        (0, none, some .bagNotEmpty)) :=
  ⟨by decide, by decide,
    solve_gate (fun _ => ⟨[7], 42, none⟩) ⟨[1], [2], [3]⟩ (by decide) (by decide)⟩

/-- C10: when the search ends in cancellation or deadline expiry, `Solve`
returns the best principal variation and best value found so far together
with a nil error: the cancellation is swallowed at the boundary. -/
theorem solve_swallows_cancellation (search : SolveGame → SearchOutcome)
    (g g1 : SolveGame) (hok : solveChecks g = .ok g1)
    (hc : (search g1).err = some .canceled ∨
      (search g1).err = some .deadlineExceeded) :
    Solve search g = ((search g1).bestPVValue, some (search g1).pvMoves, none) := by
  unfold Solve
  rw [hok]
  dsimp only
  rcases hc with hc | hc <;> rw [hc]

/-- Witness: cancellation swallowed at a concrete empty-bag game. -/
theorem solve_swallows_cancellation_witness :
    solveChecks ⟨[], [2], [3]⟩ = .ok ⟨[], [2], [3]⟩ ∧
    ((fun _ : SolveGame => SearchOutcome.mk [9] 17 (some .canceled)) ⟨[], [2], [3]⟩).err =
        some SolveErr.canceled ∧
    Solve (fun _ => ⟨[9], 17, some .canceled⟩) ⟨[], [2], [3]⟩ = (17, some [9], none) :=
  ⟨rfl, by decide,
    solve_swallows_cancellation (fun _ => ⟨[9], 17, some .canceled⟩)
      ⟨[], [2], [3]⟩ ⟨[], [2], [3]⟩ rfl (Or.inl (by decide))⟩

end Negamax

/-! ## Pre-endgame driver: cutoff accounting and winner aggregation -/

namespace Peg

/-- The per-candidate state the options loop of `handleJobGeneric` touches:
the global cutoff counter (`s.numCutoffs`), the candidate's stopped latch
and weighted found losses, and the indices of the options actually solved.
Weighted counts are rationals in the embedding (the float32 values of the
source are sums and halves of permutation counts). -/
structure JobState where
  numCutoffs : Nat
  stopped : Bool
  foundLosses : Rat
  solvedIdxs : List Nat
  deriving DecidableEq, Repr

/-- The per-option loop of `Solver.handleJobGeneric` (lines 290-348 of the
preendgame source): before solving each option, re-check the early-cutoff
condition against the current global minimum potential losses (`minAt idx`,
which other threads may lower between iterations); on a hit, mark the
candidate stopped and add the number of unexplored options to the cutoff
counter; otherwise solve the option (`step`, the `recursiveSolve` call,
which may update the candidate's found losses) and continue. -/
def optionsLoop {α : Type} (earlyCutoffOptim : Bool) (minAt : Nat → Rat)
    (step : Nat → Rat → Rat) : List α → Nat → JobState → JobState
  | [], _, st => st
  | _ :: rest, idx, st =>
    if minAt idx < st.foundLosses ∧ earlyCutoffOptim = true then
      { st with stopped := true, numCutoffs := st.numCutoffs + (rest.length + 1) }
    else
      optionsLoop earlyCutoffOptim minAt step rest (idx + 1)
        { st with
          foundLosses := step idx st.foundLosses,
          solvedIdxs := st.solvedIdxs ++ [idx] }

/-- C8: whenever the between-permutations check finds the candidate's
found losses above the global minimum potential losses (early cutoff on),
the candidate is marked stopped, no further option is solved, the found
losses stay as they were, and the cutoff counter grows by exactly the
number of unexplored options (the current one plus the rest). -/
theorem optionsLoop_cutoff {α : Type} (minAt : Nat → Rat) (step : Nat → Rat → Rat)
    (o : α) (rest : List α) (idx : Nat) (st : JobState)
    (hg : minAt idx < st.foundLosses) :
    optionsLoop true minAt step (o :: rest) idx st =
      { st with
        stopped := true,
        numCutoffs := st.numCutoffs + (rest.length + 1) } := by
  unfold optionsLoop
  rw [if_pos ⟨hg, rfl⟩]

/-- Witness: the cutoff theorem applied with two unexplored options and
found losses 2 against a global minimum of 1. -/
theorem optionsLoop_cutoff_witness :
    (fun _ : Nat => (1 : Rat)) 3 < (JobState.mk 5 false 2 [0]).foundLosses ∧
    optionsLoop true (fun _ => (1 : Rat)) (fun _ q => q) [(), ()] 3
        ⟨5, false, 2, [0]⟩ =
      ⟨7, true, 2, [0]⟩ :=
  ⟨by decide,
    optionsLoop_cutoff (fun _ => (1 : Rat)) (fun _ q => q) () [()] 3
      ⟨5, false, 2, [0]⟩ (by decide)⟩

/-- A pre-endgame candidate play as the winner aggregator reads it. -/
structure PegPlay where
  points : Rat
  deriving DecidableEq, Repr

/-- The state the winner-determination goroutine owns: the best play seen
so far and the global minimum potential losses (guarded by
`potentialWinnerMutex` in the source; the embedding makes the aggregator
the sole writer, as the source does). -/
structure WinnerState where
  winnerSoFar : Option PegPlay
  minPotentialLosses : Rat
  deriving DecidableEq, Repr

/-- One step of the winner aggregator (lines 91-113 of the preendgame
source): keep the higher-points play, then lower the global minimum
potential losses to `numCombos - points` when that is strictly smaller. -/
def winnerStep (numCombos : Rat) (st : WinnerState) (p : PegPlay) : WinnerState :=
  let st1 :=
    match st.winnerSoFar with
    | some w => if w.points < p.points then { st with winnerSoFar := some p } else st
    | none => { st with winnerSoFar := some p }
  if numCombos - p.points < st1.minPotentialLosses then
    { st1 with minPotentialLosses := numCombos - p.points }
  else st1

/-- The winner aggregator: fold the received plays in channel order. -/
def winnerAggregate (numCombos : Rat) (msgs : List PegPlay) (st : WinnerState) :
    WinnerState :=
  msgs.foldl (winnerStep numCombos) st

/-- C9: the global minimum potential losses is monotonically non-increasing
over the aggregation, and every update writes exactly
`numCombos - points`, strictly below the previous value. -/
theorem minPotentialLosses_monotone (numCombos : Rat) :
    (∀ (st : WinnerState) (p : PegPlay),
        (winnerStep numCombos st p).minPotentialLosses = st.minPotentialLosses ∨
        ((winnerStep numCombos st p).minPotentialLosses = numCombos - p.points ∧
          (winnerStep numCombos st p).minPotentialLosses <
            st.minPotentialLosses)) ∧
    (∀ (msgs : List PegPlay) (st : WinnerState),
        (winnerAggregate numCombos msgs st).minPotentialLosses ≤
          st.minPotentialLosses) := by
  have hmin1 : ∀ (st : WinnerState) (p : PegPlay),
      (match st.winnerSoFar with
        | some w => if w.points < p.points then { st with winnerSoFar := some p }
          else st
        | none => { st with winnerSoFar := some p } :
        WinnerState).minPotentialLosses = st.minPotentialLosses := by
    intro st p
    cases st.winnerSoFar with
    | none => rfl
    | some w =>
      dsimp only
      by_cases hw : w.points < p.points
      · rw [if_pos hw]
      · rw [if_neg hw]
  have hstep : ∀ (st : WinnerState) (p : PegPlay),
      (winnerStep numCombos st p).minPotentialLosses = st.minPotentialLosses ∨
      ((winnerStep numCombos st p).minPotentialLosses = numCombos - p.points ∧
        (winnerStep numCombos st p).minPotentialLosses < st.minPotentialLosses) := by
    intro st p
    unfold winnerStep
    by_cases hpp : numCombos - p.points <
        (match st.winnerSoFar with
          | some w => if w.points < p.points then { st with winnerSoFar := some p }
            else st
          | none => { st with winnerSoFar := some p } :
          WinnerState).minPotentialLosses
    · right
      rw [if_pos hpp]
      have := hmin1 st p
      constructor
      · rfl
      · rw [← this]
        exact lt_of_lt_of_le hpp (le_of_eq rfl)
    · left
      rw [if_neg hpp]
      exact hmin1 st p
  refine ⟨hstep, ?_⟩
  intro msgs
  induction msgs with
  | nil => intro st; exact le_refl _
  | cons m t ih =>
    intro st
    have h1 : winnerAggregate numCombos (m :: t) st =
        winnerAggregate numCombos t (winnerStep numCombos st m) := rfl
    rw [h1]
    refine le_trans (ih (winnerStep numCombos st m)) ?_
    rcases hstep st m with h | ⟨_, h⟩
    · exact le_of_eq h
    · exact le_of_lt h

end Peg
